import Mathlib

/-!
Shallow embedding of the search engine in
`src/rust-components/src/search_engine/mod.rs` (struct `SearchEngine`,
methods `search_pattern` and `search_files`, helper `search_in_file`,
records `SearchOptions`, `SearchResult`, `Match`).

The Rust code delegates traversal to the `ignore` crate (`WalkBuilder`)
and content scanning to the `grep` crate (`SearcherBuilder` with
`BinaryDetection::quit(0)` and a line-oriented `RegexMatcher`).  The
embedding models those library calls at the level of their documented,
observable semantics:

* file contents are byte lists (`List Nat`, each element < 256 on real
  inputs; nothing below depends on the bound);
* a compiled line pattern is a function returning the span of the first
  match inside one line (`none` = line does not match), standing for
  `grep::regex::RegexMatcher::new_line_matcher`;
* the `grep` searcher reads a file through a line buffer of capacity
  65536 bytes.  With `BinaryDetection::quit(0)` each buffer fill checks
  the newly read bytes for a NUL: if one is found the search stops
  without scanning that fill's data, while complete lines of earlier
  fills have already been scanned and their matches reported
  (`grep-searcher`: `LineBufferReader::fill` sets the binary offset and
  the search loop returns before `match_by_line` runs on that buffer);
* `ignore::WalkBuilder::add(path)` adds a further root *path* to walk
  (it is not a glob override): the engine passes its include globs, and
  its exclude globs prefixed with `!`, to `add`, so they are walked as
  literal paths; a root that does not exist yields an error entry which
  the walk callback discards (`if let Ok(entry)`);
* the walker yields the root at depth 0 and descends into a directory
  at depth `d` only when `d < max_depth`; `hidden(true)` skips (prunes)
  any discovered entry whose name starts with `.`; `ignore(true)` /
  `git_ignore(true)` skip entries matched by the directory's local
  ignore / gitignore rules.  Ignore-file rules are modelled as the list
  of entry names a directory's ignore files match;
* after quiescence, both methods call `Arc::try_unwrap` on the shared
  results vector.  That unwrap succeeds only when the strong count is
  exactly 1 — but `results_clone` (line 50) and `files_clone`
  (line 103) are locals of the enclosing function, borrowed (not moved)
  by the closure factory, and still alive at lines 81 and 128.  The
  strong count is therefore 2, the unwrap deterministically fails, and
  with a valid pattern `search_pattern` always returns
  `Err("Failed to unwrap results")` and `search_files` always returns
  `Err("Failed to unwrap files")`, discarding the collection they just
  built.  The model keeps both the internal aggregated collection
  (`gatherResults` / `gatherFiles`, the state of the `Arc`'d vector at
  quiescence) and the always-failing result of the method itself.

Paths are modelled as component lists (`List String`), root first;
per-file I/O failure (open/canonicalize) is modelled as the file's
content being `none`.  Match fields are `f64` in Rust; they hold exact
small integers, modelled as `Nat`.  The parallel walk's cross-file
order is unspecified in the source; the model fixes left-to-right
order.
-/

namespace SearchEngine

/-- One content match, mirroring `Match` in `mod.rs`: the sink pushes
`line_number = mat.line_number()`, `column_start = mat.absolute_byte_offset()`,
`column_end = absolute_byte_offset + mat.bytes().len()`, `text = mat.bytes()`
(decoded lossily; the model keeps the bytes). -/
structure Match where
  line_number : Nat
  column_start : Nat
  column_end : Nat
  text : List Nat
deriving DecidableEq, Repr

/-- `SearchResult` of `mod.rs`: a file path with its (non-empty) matches.
The Rust field is named `matches`; that word is reserved syntax in Lean,
so the field is called `matchList` here. -/
structure SearchResult where
  file_path : List String
  matchList : List Match
deriving DecidableEq, Repr

/-- `SearchOptions` of `mod.rs` (all fields optional; `max_depth` is `i32`). -/
structure SearchOptions where
  case_sensitive : Option Bool := none
  include_hidden : Option Bool := none
  disable_ignore : Option Bool := none
  disable_gitignore : Option Bool := none
  max_depth : Option Int := none
  include_patterns : Option (List String) := none
  exclude_patterns : Option (List String) := none
deriving DecidableEq, Repr

/-- A compiled line-oriented pattern (`RegexMatcher::new_line_matcher`):
`find line` is the byte span `(start, stop)` of the first match within the
line, `none` when the line does not match. -/
structure LinePattern where
  find : List Nat → Option (Nat × Nat)

/-- Does a line match the compiled pattern? -/
def LinePattern.matchesLine (p : LinePattern) (l : List Nat) : Bool :=
  (p.find l).isSome

/-- Is `needle` a leading block of `hay`? (helper for literal patterns). -/
def litHere : List Nat → List Nat → Bool
  | [], _ => true
  | _ :: _, [] => false
  | a :: as, b :: bs => a == b && litHere as bs

/-- First occurrence of `needle` in `hay`, as a byte span, searching from
index `i` (helper for building concrete compiled patterns). -/
def litFindAux (needle : List Nat) : List Nat → Nat → Option (Nat × Nat)
  | [], i => if needle.isEmpty then some (i, i) else none
  | b :: rest, i =>
    if litHere needle (b :: rest) then some (i, i + needle.length)
    else litFindAux needle rest (i + 1)

/-- The compiled pattern that matches a fixed literal byte string, used to
instantiate theorems at concrete inputs. -/
def litPattern (needle : List Nat) : LinePattern :=
  ⟨fun hay => litFindAux needle hay 0⟩

/-- Split a byte list into lines the way the `grep` searcher does in
by-line mode: each line includes its terminating `\n` (byte 10); a final
unterminated fragment is also a line; the empty file has no lines.
`acc` holds the current line's bytes reversed. -/
def splitLinesAux : List Nat → List Nat → List (List Nat)
  | [], acc => if acc.isEmpty then [] else [acc.reverse]
  | b :: bs, acc =>
    if b == 10 then (acc.reverse ++ [10]) :: splitLinesAux bs []
    else splitLinesAux bs (b :: acc)

/-- The lines of a byte list (terminators kept). -/
def splitLines (bs : List Nat) : List (List Nat) :=
  splitLinesAux bs []

/-- The complete (newline-terminated) lines of a byte list: like
`splitLines` but a final unterminated fragment is dropped.  This is what
the searcher has scanned once it has consumed `bs` but not reached EOF:
the trailing fragment stays in the line buffer awaiting more data. -/
def completeLines (bs : List Nat) : List (List Nat) :=
  let ls := splitLines bs
  match ls.getLast? with
  | none => []
  | some l => if l.getLast? = some 10 then ls else ls.dropLast

/-- Matches produced by scanning the given lines in order, starting at
absolute byte offset `off` and 1-based line number `ln`: each matching
line yields one `Match` carrying the offsets of the whole line (this is
what the sink records from `SinkMatch`). -/
def matchesFrom (pat : LinePattern) : List (List Nat) → Nat → Nat → List Match
  | [], _, _ => []
  | l :: ls, off, ln =>
    (if pat.matchesLine l then [⟨ln, off, off + l.length, l⟩] else [])
      ++ matchesFrom pat ls (off + l.length) (ln + 1)

/-- `grep-searcher`'s line-buffer capacity (`DEFAULT_BUFFER_CAPACITY`,
64 KiB): each `fill` reads at most this many further bytes. -/
def CAP : Nat := 65536

/-- Index of the capacity-sized read chunk of `bs` in which the first
NUL byte lies (`none` when `bs` has no NUL): the fill reading bytes
`[k * CAP, (k+1) * CAP)` is the first fill whose binary check (installed
by `BinaryDetection::quit(0)`) fires.  The chunk holding the first NUL
is necessarily the first chunk holding any NUL, so it is computed as
`⌊index of first NUL / CAP⌋`. -/
def firstNulChunk (bs : List Nat) : Option Nat :=
  if bs.contains 0 then some (bs.findIdx (fun b => b == 0) / CAP) else none

/-- The lines of the file that actually get scanned.  When no NUL is
read the whole file is scanned (the final fragment is flushed as a line
at EOF).  When the first NUL lies in read chunk `k`, that fill aborts
the search before its data is scanned: only the complete lines of the
first `k * CAP` bytes have been scanned. -/
def scannedLines (content : List Nat) : List (List Nat) :=
  match firstNulChunk content with
  | none => splitLines content
  | some k => completeLines (content.take (k * CAP))

/-- `search_in_file` of `mod.rs`: scan the file's bytes line by line with
the compiled pattern, quitting on binary input; each matching scanned
line is pushed as one `Match` by the sink. -/
def search_in_file (pat : LinePattern) (content : List Nat) : List Match :=
  matchesFrom pat (scannedLines content) 0 1

mutual
/-- A file-system tree.  A `file` carries `some bytes`, or `none` when
opening/canonicalizing it fails (per-file I/O error).  A `dir` carries
the entry names its local ignore file matches (`ignoreRules`), the entry
names its gitignore rules match (`gitignoreRules`), and its entries. -/
inductive FSTree where
  | file (content : Option (List Nat)) : FSTree
  | dir (ignoreRules gitignoreRules : List String) (entries : FSEntries) : FSTree

/-- The entry list of a directory: names paired with subtrees. -/
inductive FSEntries where
  | nil : FSEntries
  | cons (name : String) (child : FSTree) (rest : FSEntries) : FSEntries
end

/-- A file reached by the walker: its path (root first, then the entry
names down from the root), its own name (`Path::file_name`), and its
content (`none` = unreadable). -/
structure WalkedFile where
  path : List String
  name : String
  content : Option (List Nat)
deriving DecidableEq, Repr

/-- The walker configuration produced by the `WalkBuilder` calls:
`hidden b` (filter hidden entries), `ignore b` (honor local ignore
files), `git_ignore b`, `max_depth`. -/
structure WalkConfig where
  hidden : Bool
  ignore : Bool
  git_ignore : Bool
  max_depth : Option Nat
deriving DecidableEq, Repr

/-- May the walker descend into a directory sitting at depth `depth`?
(The root is at depth 0; an entry of a depth-`d` directory is at depth
`d + 1`, and entries are yielded only up to depth `max_depth`.) -/
def canDescend (cfg : WalkConfig) (depth : Nat) : Bool :=
  match cfg.max_depth with
  | none => true
  | some m => depth < m

/-- Is `n` a hidden name, i.e. does it start with a `.`?  (The `ignore`
crate's hidden test looks at the first byte of the file name.) -/
def isHiddenName (n : String) : Bool :=
  match n.data with
  | [] => false
  | c :: _ => c == '.'

/-- Is the entry named `n` skipped (pruned, never yielded nor descended
into) by the filters, given the enclosing directory's ignore and
gitignore rules? -/
def skipEntry (cfg : WalkConfig) (ig git : List String) (n : String) : Bool :=
  (cfg.hidden && isHiddenName n) || (cfg.ignore && ig.contains n)
    || (cfg.git_ignore && git.contains n)

mutual
/-- The files yielded by walking tree `t` sitting at `path` (name `name`)
at depth `depth`: a file is yielded; a directory's entries are walked
when the depth bound allows descent.  Only files are returned because
both callbacks in `mod.rs` drop non-file entries
(`entry.file_type().map_or(false, |ft| ft.is_file())`). -/
def walkTree (cfg : WalkConfig) (t : FSTree) (path : List String)
    (name : String) (depth : Nat) : List WalkedFile :=
  match t with
  | .file c => [⟨path, name, c⟩]
  | .dir ig git es =>
    if canDescend cfg depth then walkEntries cfg ig git es path depth else []

/-- Walk the entries of a directory at depth `depth` whose ignore and
gitignore rules are `ig` and `git`: a skipped entry contributes nothing
(it is pruned before any descent); other entries are walked at depth
`depth + 1`. -/
def walkEntries (cfg : WalkConfig) (ig git : List String) (es : FSEntries)
    (dirPath : List String) (depth : Nat) : List WalkedFile :=
  match es with
  | .nil => []
  | .cons n t rest =>
    (if skipEntry cfg ig git n then []
     else walkTree cfg t (dirPath ++ [n]) n (depth + 1))
      ++ walkEntries cfg ig git rest dirPath depth
end

/-- The file system visible to the engine: which paths (given as the
strings handed to `WalkBuilder::new` / `WalkBuilder::add`) resolve to
which trees.  A path absent from the list does not exist; walking it
yields only an error entry, which the callbacks discard. -/
def Filesystem : Type := List (String × FSTree)

/-- Split a character list at `/` into path components. -/
def splitSlash : List Char → List (List Char)
  | [] => [[]]
  | c :: cs =>
    if c == '/' then [] :: splitSlash cs
    else
      match splitSlash cs with
      | [] => [[c]]
      | p :: ps => (c :: p) :: ps

/-- The last nonempty `/`-separated component of a root path string,
standing for `Path::file_name` on the root itself. -/
def lastComponent (r : String) : String :=
  match ((splitSlash r.data).filter (fun c => !c.isEmpty)).getLast? with
  | some cs => String.mk cs
  | none => r

/-- Walk every root in `roots` that resolves in the file system,
concatenating the files found; a root that does not resolve contributes
nothing (its error entry is dropped by `if let Ok(entry)`). -/
def walkRoots (fs : Filesystem) (cfg : WalkConfig) (roots : List String) :
    List WalkedFile :=
  roots.flatMap (fun r =>
    match fs.lookup r with
    | some t => walkTree cfg t [r] (lastComponent r) 0
    | none => [])

/-- The errors `search_pattern` / `search_files` can return:
pattern compilation failure (`Error::from_reason` on the regex error),
and the `"Failed to unwrap results"` / `"Failed to unwrap files"`
errors raised when `Arc::try_unwrap` finds the strong count above 1 —
which, because `results_clone` / `files_clone` are still alive at that
point, happens on every call that gets past pattern compilation.
(`Mutex::into_inner`'s `"Failed to access results/files"` error sits
behind the `?` on the unwrap and is unreachable.) -/
inductive SearchError where
  | invalidPattern : SearchError
  | failedUnwrapResults : SearchError
  | failedUnwrapFiles : SearchError
deriving DecidableEq, Repr

/-- Rust's `d as usize` on an `i32`, as used for `max_depth`. -/
def usizeOfI32 (d : Int) : Nat :=
  (d.emod (2 ^ 64)).toNat

/-- The walker configuration `search_pattern` builds from its options:
`hidden(!include_hidden.unwrap_or(false))`,
`ignore(!disable_ignore.unwrap_or(false))`,
`git_ignore(!disable_gitignore.unwrap_or(false))`,
`max_depth(opts.max_depth.map(|d| d as usize))`. -/
def contentWalkConfig (opts : SearchOptions) : WalkConfig :=
  { hidden := !(opts.include_hidden.getD false)
    ignore := !(opts.disable_ignore.getD false)
    git_ignore := !(opts.disable_gitignore.getD false)
    max_depth := opts.max_depth.map usizeOfI32 }

/-- The list of root paths the content walk traverses: the requested
root, then — via `WalkBuilder::add`, which adds a further root *path* —
every include glob string as given and every exclude glob string
prefixed with `!`. -/
def searchRootList (root_path : String) (opts : SearchOptions) : List String :=
  root_path
    :: (opts.include_patterns.getD []
        ++ (opts.exclude_patterns.getD []).map (fun g => "!" ++ g))

/-- The body of the per-candidate callback in `search_pattern`: an
unreadable file is skipped (`if let Ok(matches)`), a readable file
yields a `SearchResult` exactly when its scan found a match
(`if !matches.is_empty()`). -/
def processEntry (pat : LinePattern) (e : WalkedFile) : Option SearchResult :=
  match e.content with
  | none => none
  | some bytes =>
    let ms := search_in_file pat bytes
    if ms.isEmpty then none else some ⟨e.path, ms⟩

/-- The contents of the `Arc<Mutex<Vec<SearchResult>>>` once the
parallel walk of `search_pattern` reaches quiescence: one
`SearchResult` per readable walked file whose scan found a match.
This collection is built by the workers but never escapes the method —
the `Arc::try_unwrap` that would hand it to the caller always fails. -/
def gatherResults (fs : Filesystem) (root_path : String) (pat : LinePattern)
    (opts : SearchOptions) : List SearchResult :=
  (walkRoots fs (contentWalkConfig opts) (searchRootList root_path opts)).filterMap
    (processEntry pat)

/-- `SearchEngine::search_pattern`: fail with `InvalidPattern` iff the
pattern did not compile (`compiled = none` models
`RegexMatcher::new_line_matcher` failing); otherwise walk the roots,
accumulate `gatherResults`, and then fail anyway: `results_clone`
(line 50) still holds a second strong reference at
`Arc::try_unwrap(results)` (line 81), so the unwrap's `map_err`+`?`
returns `Err("Failed to unwrap results")` on every such call and the
accumulated collection is discarded. -/
def search_pattern (fs : Filesystem) (root_path : String)
    (compiled : Option LinePattern) (opts : SearchOptions) :
    Except SearchError (List SearchResult) :=
  match compiled with
  | none => .error .invalidPattern
  | some pat =>
    let _results := gatherResults fs root_path pat opts
    .error .failedUnwrapResults

/-- The fixed walker configuration of `SearchEngine::search_files`:
`hidden(false)`, `ignore(false)`, `git_ignore(true)`, no depth bound.
The method takes no options, so nothing can alter these. -/
def filenameWalkConfig : WalkConfig :=
  { hidden := false, ignore := false, git_ignore := true, max_depth := none }

instance {ε α : Type _} [DecidableEq ε] [DecidableEq α] :
    DecidableEq (Except ε α) := fun a b =>
  match a, b with
  | .error e, .error f => decidable_of_iff (e = f) (by simp)
  | .ok x, .ok y => decidable_of_iff (x = y) (by simp)
  | .error _, .ok _ => isFalse (by simp)
  | .ok _, .error _ => isFalse (by simp)

/-- The contents of the `Arc<Mutex<Vec<String>>>` once the parallel
walk of `search_files` reaches quiescence: the canonical paths of the
walked files whose name matches.  Like `gatherResults`, this collection
never escapes the method. -/
def gatherFiles (fs : Filesystem) (root_path : String) (isMatch : String → Bool) :
    List (List String) :=
  ((walkRoots fs filenameWalkConfig [root_path]).filter
    (fun e => isMatch e.name)).map (fun e => e.path)

/-- `SearchEngine::search_files`: fail with `InvalidPattern` iff the
filename pattern did not compile (`compiled = none` models
`regex::Regex::new` failing); otherwise walk the root with the fixed
configuration, accumulate `gatherFiles`, and then fail anyway:
`files_clone` (line 103) still holds a second strong reference at
`Arc::try_unwrap(files)` (line 128), so every such call returns
`Err("Failed to unwrap files")` and the collected paths are
discarded. -/
def search_files (fs : Filesystem) (root_path : String)
    (compiled : Option (String → Bool)) :
    Except SearchError (List (List String)) :=
  match compiled with
  | none => .error .invalidPattern
  | some isMatch =>
    let _files := gatherFiles fs root_path isMatch
    .error .failedUnwrapFiles

/-- The entries of a directory as an ordinary list (for statements). -/
def entriesToList : FSEntries → List (String × FSTree)
  | .nil => []
  | .cons n t rest => (n, t) :: entriesToList rest

mutual
/-- Reference walker with no depth bound at all (the depth-rule-free
counterpart of `walkTree`, used to state what an unset `max_depth`
means). -/
def walkTreeU (cfg : WalkConfig) (t : FSTree) (path : List String)
    (name : String) : List WalkedFile :=
  match t with
  | .file c => [⟨path, name, c⟩]
  | .dir ig git es => walkEntriesU cfg ig git es path

/-- Entry-list walker of `walkTreeU`. -/
def walkEntriesU (cfg : WalkConfig) (ig git : List String) (es : FSEntries)
    (dirPath : List String) : List WalkedFile :=
  match es with
  | .nil => []
  | .cons n t rest =>
    (if skipEntry cfg ig git n then [] else walkTreeU cfg t (dirPath ++ [n]) n)
      ++ walkEntriesU cfg ig git rest dirPath
end

/-!  Concrete fixtures used to instantiate the theorems below. -/

/-- The compiled pattern for the literal regex `foo`. -/
def patFoo : LinePattern := litPattern [102, 111, 111]

/-- The compiled pattern for the literal regex `bar`. -/
def patBar : LinePattern := litPattern [98, 97, 114]

/-- The bytes of the text `foo\n`. -/
def fooLine : List Nat := [102, 111, 111, 10]

/-- The bytes of the one-line file `foobarbaz\n`. -/
def fileFoobarbaz : List Nat := [102, 111, 111, 98, 97, 114, 98, 97, 122, 10]

/-- A 65532-byte second line (`aaa…a\n`) used to fill the first read
chunk of `contentBig` exactly. -/
def fillerLine : List Nat := List.replicate 65531 97 ++ [10]

/-- The first 65536 bytes of `contentBig`: a matching `foo\n` line
followed by the filler line; NUL-free. -/
def chunk0 : List Nat := fooLine ++ fillerLine

/-- A 65537-byte file whose first read chunk (64 KiB) is NUL-free and
contains a matching line, and whose second read chunk is a single NUL
byte. -/
def contentBig : List Nat := chunk0 ++ [0]

/-- Demo directory: a matching plain file, a hidden subdirectory with a
matching file, a plain subdirectory with a matching file, a gitignored
matching file, and an unreadable file. -/
def demoEntries : FSEntries :=
  .cons "a.txt" (.file (some fooLine)) (
  .cons ".hid" (.dir [] [] (.cons "b.txt" (.file (some fooLine)) .nil)) (
  .cons "sub" (.dir [] [] (.cons "c.txt" (.file (some fooLine)) .nil)) (
  .cons "g.txt" (.file (some fooLine)) (
  .cons "u.txt" (.file none) .nil))))

/-- Demo root directory whose gitignore rules match `g.txt`. -/
def treeDemo : FSTree := .dir [] ["g.txt"] demoEntries

/-- Demo file system with the demo tree at root path `r`. -/
def fsDemo : Filesystem := [("r", treeDemo)]

/-- File system for the glob claims: the root holds a matching `.md`
file and a matching `…_skip.txt` file; the glob strings `*.txt` and
`!*_skip.txt` resolve to nothing. -/
def fsC3 : Filesystem :=
  [("r", .dir [] [] (
      .cons "a.md" (.file (some fooLine)) (
      .cons "b_skip.txt" (.file (some fooLine)) .nil)))]

/-!  Helper lemmas. -/

/-- Inversion for `processEntry`: a produced `SearchResult` comes from a
readable file whose scan found a match, and carries that file's path and
matches. -/
theorem processEntry_eq_some {pat : LinePattern} {e : WalkedFile} {r : SearchResult}
    (h : processEntry pat e = some r) :
    ∃ bytes, e.content = some bytes ∧ (search_in_file pat bytes).isEmpty = false
      ∧ r = ⟨e.path, search_in_file pat bytes⟩ := by
  unfold processEntry at h
  cases hc : e.content with
  | none => rw [hc] at h; simp at h
  | some bytes =>
    rw [hc] at h
    simp only at h
    by_cases hm : (search_in_file pat bytes).isEmpty
    · rw [if_pos hm] at h; simp at h
    · rw [if_neg hm] at h
      cases h
      exact ⟨bytes, rfl, Bool.eq_false_iff.mpr hm, rfl⟩

mutual
/-- With hidden filtering on, every file walked below `path` sits at
`path ++ comps` with no hidden component in `comps`. -/
theorem walkTree_no_hidden (cfg : WalkConfig) (hcfg : cfg.hidden = true)
    (t : FSTree) (path : List String) (name : String) (depth : Nat) :
    ∀ e ∈ walkTree cfg t path name depth,
      ∃ comps, e.path = path ++ comps ∧ ∀ c ∈ comps, isHiddenName c = false := by
  cases t with
  | file c =>
    intro e he
    rw [walkTree] at he
    simp only [List.mem_singleton] at he
    subst he
    exact ⟨[], by simp, by simp⟩
  | dir ig git es =>
    intro e he
    rw [walkTree] at he
    by_cases hd : canDescend cfg depth = true
    · rw [if_pos hd] at he
      exact walkEntries_no_hidden cfg hcfg ig git es path depth e he
    · rw [if_neg hd] at he; simp at he

/-- Entry-list counterpart of `walkTree_no_hidden`. -/
theorem walkEntries_no_hidden (cfg : WalkConfig) (hcfg : cfg.hidden = true)
    (ig git : List String) (es : FSEntries) (dirPath : List String) (depth : Nat) :
    ∀ e ∈ walkEntries cfg ig git es dirPath depth,
      ∃ comps, e.path = dirPath ++ comps ∧ ∀ c ∈ comps, isHiddenName c = false := by
  cases es with
  | nil => intro e he; rw [walkEntries] at he; simp at he
  | cons n t rest =>
    intro e he
    rw [walkEntries, List.mem_append] at he
    rcases he with he | he
    · by_cases hs : skipEntry cfg ig git n = true
      · rw [if_pos hs] at he; simp at he
      · rw [if_neg hs] at he
        obtain ⟨comps, hp, hc⟩ :=
          walkTree_no_hidden cfg hcfg t (dirPath ++ [n]) n (depth + 1) e he
        refine ⟨n :: comps, by rw [hp]; simp, ?_⟩
        intro c hcm
        rcases List.mem_cons.mp hcm with rfl | hcm
        · simp only [skipEntry, hcfg, Bool.true_and, Bool.or_eq_true,
            not_or, Bool.not_eq_true] at hs
          exact hs.1.1
        · exact hc c hcm
    · exact walkEntries_no_hidden cfg hcfg ig git rest dirPath depth e he
end

mutual
/-- With no depth bound, `walkTree` agrees with the unlimited walker. -/
theorem walkTree_none_eq (cfg : WalkConfig) (hmd : cfg.max_depth = none)
    (t : FSTree) (path : List String) (name : String) (depth : Nat) :
    walkTree cfg t path name depth = walkTreeU cfg t path name := by
  cases t with
  | file c => rw [walkTree, walkTreeU]
  | dir ig git es =>
    rw [walkTree, walkTreeU]
    rw [show canDescend cfg depth = true by rw [canDescend, hmd]]
    rw [if_pos rfl]
    exact walkEntries_none_eq cfg hmd ig git es path depth

/-- Entry-list counterpart of `walkTree_none_eq`. -/
theorem walkEntries_none_eq (cfg : WalkConfig) (hmd : cfg.max_depth = none)
    (ig git : List String) (es : FSEntries) (dirPath : List String) (depth : Nat) :
    walkEntries cfg ig git es dirPath depth = walkEntriesU cfg ig git es dirPath := by
  cases es with
  | nil => rw [walkEntries, walkEntriesU]
  | cons n t rest =>
    rw [walkEntries, walkEntriesU]
    rw [walkTree_none_eq cfg hmd t (dirPath ++ [n]) n (depth + 1),
      walkEntries_none_eq cfg hmd ig git rest dirPath depth]
end

/-- With `max_depth = 1`, walking a directory's entries from depth 0
yields exactly its non-skipped direct file children. -/
theorem walkEntries_depth_one (cfg : WalkConfig) (hmd : cfg.max_depth = some 1)
    (ig git : List String) (es : FSEntries) (dirPath : List String) :
    walkEntries cfg ig git es dirPath 0
      = (entriesToList es).filterMap (fun p =>
          if skipEntry cfg ig git p.1 then none
          else match p.2 with
            | .file c => some ⟨dirPath ++ [p.1], p.1, c⟩
            | .dir _ _ _ => none) := by
  cases es with
  | nil => rw [walkEntries, entriesToList]; rfl
  | cons n t rest =>
    have ih := walkEntries_depth_one cfg hmd ig git rest dirPath
    rw [walkEntries, entriesToList, List.filterMap_cons]
    by_cases hs : skipEntry cfg ig git n = true
    · rw [if_pos hs]
      simp only [hs, if_true]
      rw [List.nil_append, ih]
    · rw [if_neg hs]
      simp only [hs, if_false]
      cases t with
      | file c =>
        rw [walkTree]
        simp only [List.cons_append, List.nil_append]
        rw [ih]
        rfl
      | dir ig2 git2 es2 =>
        rw [walkTree]
        rw [show canDescend cfg (0 + 1) = false by rw [canDescend, hmd]; rfl]
        simp only [Bool.false_eq_true, if_false, List.nil_append]
        rw [ih]

/-- Membership characterization of `matchesFrom`: a `Match` is produced
exactly for a matching line, and carries that line's 1-based index, the
running byte offset of the line's start, the offset of its end, and the
line itself. -/
theorem mem_matchesFrom (pat : LinePattern) (ls : List (List Nat)) (off ln : Nat)
    (m : Match) :
    m ∈ matchesFrom pat ls off ln ↔
      ∃ i l, ls[i]? = some l ∧ pat.matchesLine l = true
        ∧ m = ⟨ln + i, off + ((ls.take i).flatten).length,
               off + ((ls.take i).flatten).length + l.length, l⟩ := by
  induction ls generalizing off ln with
  | nil => simp [matchesFrom]
  | cons l0 ls ih =>
    rw [matchesFrom, List.mem_append]
    constructor
    · rintro (hm | hm)
      · by_cases h0 : pat.matchesLine l0 = true
        · rw [if_pos h0] at hm
          simp only [List.mem_singleton] at hm
          refine ⟨0, l0, by simp, h0, ?_⟩
          rw [hm]
          simp
        · rw [if_neg h0] at hm
          simp at hm
      · obtain ⟨i, l, hg, hml, hm⟩ := (ih (off + l0.length) (ln + 1)).mp hm
        refine ⟨i + 1, l, by simpa using hg, hml, ?_⟩
        rw [hm]
        simp only [List.take_succ_cons, List.flatten_cons, List.length_append,
          Match.mk.injEq]
        exact ⟨by omega, by omega, by omega, trivial⟩
    · rintro ⟨i, l, hg, hml, hm⟩
      cases i with
      | zero =>
        left
        simp only [List.getElem?_cons_zero, Option.some.injEq] at hg
        subst hg
        rw [if_pos hml]
        simp only [List.mem_singleton]
        rw [hm]
        simp
      | succ i =>
        right
        rw [ih (off + l0.length) (ln + 1)]
        simp only [List.getElem?_cons_succ] at hg
        refine ⟨i, l, hg, hml, ?_⟩
        rw [hm]
        simp only [List.take_succ_cons, List.flatten_cons, List.length_append,
          Match.mk.injEq]
        exact ⟨by omega, by omega, by omega, trivial⟩

/-- Every match produced from starting line number `ln` has line number
at least `ln`. -/
theorem matchesFrom_line_ge (pat : LinePattern) (ls : List (List Nat)) (off ln : Nat) :
    ∀ m ∈ matchesFrom pat ls off ln, ln ≤ m.line_number := by
  induction ls generalizing off ln with
  | nil => simp [matchesFrom]
  | cons l0 ls ih =>
    intro m hm
    rw [matchesFrom, List.mem_append] at hm
    rcases hm with hm | hm
    · by_cases h0 : pat.matchesLine l0 = true
      · rw [if_pos h0] at hm
        simp only [List.mem_singleton] at hm
        rw [hm]
      · rw [if_neg h0] at hm; simp at hm
    · have := ih (off + l0.length) (ln + 1) m hm
      omega

/-- The line numbers of the produced matches are strictly increasing, so
each line yields at most one match. -/
theorem matchesFrom_pairwise (pat : LinePattern) (ls : List (List Nat)) (off ln : Nat) :
    ((matchesFrom pat ls off ln).map (fun m => m.line_number)).Pairwise
      (fun a b => a < b) := by
  induction ls generalizing off ln with
  | nil => simp [matchesFrom]
  | cons l0 ls ih =>
    rw [matchesFrom, List.map_append, List.pairwise_append]
    refine ⟨?_, ih (off + l0.length) (ln + 1), ?_⟩
    · by_cases h0 : pat.matchesLine l0 = true
      · rw [if_pos h0]; simp
      · rw [if_neg h0]; simp
    · intro a ha b hb
      rw [List.mem_map] at ha hb
      obtain ⟨ma, hma, rfl⟩ := ha
      obtain ⟨mb, hmb, rfl⟩ := hb
      by_cases h0 : pat.matchesLine l0 = true
      · rw [if_pos h0] at hma
        simp only [List.map_cons, List.map_nil, List.mem_singleton] at hma
        have hge := matchesFrom_line_ge pat ls (off + l0.length) (ln + 1) mb hmb
        have h2 : ma.line_number = ln := by rw [hma]
        rw [h2]
        omega
      · rw [if_neg h0] at hma; simp at hma

/-- Concatenating the pieces produced by `splitLinesAux` recovers the
input (with the pending accumulator in front). -/
theorem splitLinesAux_flatten (bs : List Nat) :
    ∀ acc, (splitLinesAux bs acc).flatten = acc.reverse ++ bs := by
  induction bs with
  | nil =>
    intro acc
    cases acc with
    | nil => rfl
    | cons a acc => rw [splitLinesAux]; simp
  | cons b bs ih =>
    intro acc
    rw [splitLinesAux]
    by_cases hb : (b == 10) = true
    · rw [if_pos hb]
      have : b = 10 := by simpa using hb
      subst this
      simp [ih]
    · rw [if_neg hb]
      rw [ih (b :: acc)]
      simp

/-- Concatenating a file's lines recovers the file. -/
theorem splitLines_flatten (bs : List Nat) : (splitLines bs).flatten = bs := by
  rw [splitLines, splitLinesAux_flatten]
  rfl

/-- `completeLines` when the input has no lines. -/
theorem completeLines_eq_none (bs : List Nat)
    (h : (splitLines bs).getLast? = none) : completeLines bs = [] := by
  show (match (splitLines bs).getLast? with
    | none => ([] : List (List Nat))
    | some l => if l.getLast? = some 10 then splitLines bs
                else (splitLines bs).dropLast) = []
  rw [h]

/-- `completeLines` in terms of the last line. -/
theorem completeLines_eq_some (bs : List Nat) (l : List Nat)
    (h : (splitLines bs).getLast? = some l) :
    completeLines bs
      = if l.getLast? = some 10 then splitLines bs
        else (splitLines bs).dropLast := by
  show (match (splitLines bs).getLast? with
    | none => ([] : List (List Nat))
    | some l => if l.getLast? = some 10 then splitLines bs
                else (splitLines bs).dropLast) = _
  rw [h]

/-- The complete lines of a byte list concatenate to an initial segment
of it. -/
theorem completeLines_flatten (bs : List Nat) :
    ∃ s, (completeLines bs).flatten ++ s = bs := by
  cases h : (splitLines bs).getLast? with
  | none =>
    rw [completeLines_eq_none bs h]
    exact ⟨bs, by simp⟩
  | some l =>
    rw [completeLines_eq_some bs l h]
    by_cases hl : l.getLast? = some 10
    · rw [if_pos hl]
      exact ⟨[], by rw [List.append_nil, splitLines_flatten]⟩
    · rw [if_neg hl]
      have hne : splitLines bs ≠ [] := by
        intro hnil
        rw [hnil] at h
        simp at h
      have hlast : (splitLines bs).getLast hne = l := by
        rw [List.getLast?_eq_getLast _ hne] at h
        exact (Option.some.injEq _ _ ▸ h :)
      refine ⟨l, ?_⟩
      have hd : (splitLines bs).dropLast ++ [l] = splitLines bs := by
        rw [← hlast]
        exact List.dropLast_append_getLast hne
      calc ((splitLines bs).dropLast).flatten ++ l
      _ = ((splitLines bs).dropLast ++ [l]).flatten := by
          rw [List.flatten_append]
          simp
      _ = bs := by rw [hd, splitLines_flatten]

/-- The scanned lines of a file concatenate to an initial segment of the
file. -/
theorem scannedLines_flatten (content : List Nat) :
    ∃ s, (scannedLines content).flatten ++ s = content := by
  unfold scannedLines
  cases firstNulChunk content with
  | none => exact ⟨[], by rw [List.append_nil, splitLines_flatten]⟩
  | some k =>
    obtain ⟨s, hs⟩ := completeLines_flatten (content.take (k * CAP))
    exact ⟨s ++ content.drop (k * CAP), by
      rw [← List.append_assoc, hs, List.take_append_drop]⟩

/-- Cutting the whole byte sequence at the running offset of line `i`
recovers line `i`: the offsets produced by the scan are absolute. -/
theorem slice_of_flatten {content : List Nat} {ls : List (List Nat)} {s : List Nat}
    (hfl : ls.flatten ++ s = content) {i : Nat} {l : List Nat}
    (hg : ls[i]? = some l) :
    (content.drop (((ls.take i).flatten).length)).take l.length = l := by
  have hi : i < ls.length := by
    by_contra hge
    rw [List.getElem?_eq_none (Nat.le_of_not_lt hge)] at hg
    exact Option.noConfusion hg
  have hl : ls[i] = l := by
    have hge := List.getElem?_eq_getElem hi
    rw [hge] at hg
    exact Option.some_injective _ hg
  have hflat : ls.flatten
      = ((ls.take i).flatten) ++ (l ++ ((ls.drop (i + 1)).flatten)) := by
    conv_lhs => rw [← List.take_append_drop i ls]
    rw [List.flatten_append, List.drop_eq_getElem_cons hi, hl, List.flatten_cons]
  have hc : content = ((ls.take i).flatten)
      ++ (l ++ (((ls.drop (i + 1)).flatten) ++ s)) := by
    rw [← hfl, hflat]
    simp [List.append_assoc]
  rw [hc, List.drop_left, List.take_left]

/-- A pattern position within the first `n` bytes bounds `findIdx`. -/
theorem findIdx_lt_of_take_contains {bs : List Nat} {n : Nat}
    (h : (bs.take n).contains 0 = true) :
    bs.findIdx (fun b => b == 0) < n := by
  induction bs generalizing n with
  | nil => simp at h
  | cons b bs ih =>
    cases n with
    | zero => simp at h
    | succ m =>
      rw [List.take_succ_cons] at h
      by_cases hb : b = 0
      · subst hb
        simp [List.findIdx_cons]
      · rw [List.findIdx_cons]
        have hb' : (b == 0) = false := by simpa using hb
        rw [List.contains_cons] at h
        have h2 : (bs.take m).contains 0 = true := by
          rcases Bool.or_eq_true_iff.mp h with h1 | h1
          · exact absurd (show b = 0 from (by simpa using h1 : (0 : Nat) = b).symm) hb
          · exact h1
        have := ih h2
        simp only [hb', cond_false]
        omega

/-- `findIdx` lands right after a block with no NUL byte. -/
theorem findIdx_append_nul (A : List Nat) (h : ∀ a ∈ A, (a == 0) = false) :
    (A ++ [0]).findIdx (fun b => b == 0) = A.length := by
  induction A with
  | nil => rfl
  | cons a A ih =>
    have ha : (a == 0) = false := h a (by simp)
    rw [List.cons_append, List.findIdx_cons, ha, cond_false,
      ih (fun x hx => h x (by simp [hx]))]
    simp

/-- A line made of non-`f` bytes cannot match the literal pattern
`foo`. -/
theorem litFindAux_no_f (hay : List Nat) (h : ∀ b ∈ hay, (b == 102) = false) :
    ∀ i, litFindAux [102, 111, 111] hay i = none := by
  induction hay with
  | nil => intro i; rfl
  | cons b hay ih =>
    intro i
    have hb : (b == 102) = false := h b (by simp)
    have hb' : ((102 : Nat) == b) = false := by
      simp only [beq_eq_false_iff_ne] at hb ⊢
      exact fun hh => hb hh.symm
    rw [litFindAux]
    rw [show litHere [102, 111, 111] (b :: hay) = false by rw [litHere, hb']; rfl]
    simp only [Bool.false_eq_true, if_false]
    exact ih (fun y hy => h y (by simp [hy])) (i + 1)

/-!  Facts about the concrete big file `contentBig`. -/

/-- The first chunk of `contentBig` is exactly 64 KiB long. -/
theorem chunk0_length : chunk0.length = 65536 := by
  rw [chunk0, fooLine, fillerLine, List.length_append, List.length_append,
    List.length_replicate]
  rfl

/-- The first chunk of `contentBig` holds no NUL byte. -/
theorem chunk0_no_nul : ∀ a ∈ chunk0, (a == 0) = false := by
  intro a ha
  simp only [chunk0, fooLine, fillerLine, List.mem_append, List.mem_cons,
    List.not_mem_nil, or_false, List.mem_replicate, List.mem_singleton] at ha
  rcases ha with (h | h | h | h) | (⟨-, h⟩ | h) <;> subst h <;> decide

/-- `contentBig` does contain a NUL byte. -/
theorem contentBig_contains : contentBig.contains 0 = true := by
  simp [contentBig]

/-- The first (and only) NUL of `contentBig` lies in read chunk 1, not
in chunk 0. -/
theorem firstNulChunk_contentBig : firstNulChunk contentBig = some 1 := by
  unfold firstNulChunk
  rw [if_pos contentBig_contains]
  have h : contentBig.findIdx (fun b => b == 0) = 65536 := by
    rw [contentBig, findIdx_append_nul chunk0 chunk0_no_nul, chunk0_length]
  rw [h]
  norm_num [CAP]

/-- The bytes scanned before the aborting fill are exactly `chunk0`. -/
theorem take_contentBig : contentBig.take (1 * CAP) = chunk0 := by
  have h1 : 1 * CAP = chunk0.length := by rw [one_mul, chunk0_length]; rfl
  rw [contentBig, h1, List.take_left]

/-- `splitLinesAux` passes over a newline-free block, accumulating it. -/
theorem splitLinesAux_no_nl (xs : List Nat) (h : ∀ x ∈ xs, (x == 10) = false) :
    ∀ bs acc, splitLinesAux (xs ++ bs) acc = splitLinesAux bs (xs.reverse ++ acc) := by
  induction xs with
  | nil => intro bs acc; simp
  | cons x xs ih =>
    intro bs acc
    have hx : (x == 10) = false := h x (by simp)
    rw [List.cons_append]
    show splitLinesAux (x :: (xs ++ bs)) acc = _
    rw [splitLinesAux, hx]
    simp only [Bool.false_eq_true, if_false]
    rw [ih (fun y hy => h y (by simp [hy])) bs (x :: acc)]
    simp

/-- `splitLinesAux` closes a line at a newline. -/
theorem splitLinesAux_nl (bs acc : List Nat) :
    splitLinesAux (10 :: bs) acc = (acc.reverse ++ [10]) :: splitLinesAux bs [] := by
  rw [splitLinesAux]
  simp

/-- `chunk0` splits into its two lines. -/
theorem splitLines_chunk0 : splitLines chunk0 = [fooLine, fillerLine] := by
  have hnonl : ∀ x ∈ [102, 111, 111], (x == (10 : Nat)) = false := by decide
  have hrep : ∀ x ∈ List.replicate 65531 (97 : Nat), (x == (10 : Nat)) = false := by
    intro x hx
    rw [List.mem_replicate] at hx
    rw [hx.2]
    decide
  rw [splitLines, chunk0, fooLine]
  rw [show ([102, 111, 111, 10] : List Nat) ++ fillerLine
      = [102, 111, 111] ++ (10 :: fillerLine) by simp]
  rw [splitLinesAux_no_nl [102, 111, 111] hnonl, splitLinesAux_nl]
  rw [fillerLine, splitLinesAux_no_nl _ hrep, splitLinesAux_nl]
  rw [List.append_nil, List.append_nil, List.reverse_reverse, List.reverse_reverse]
  rw [show splitLinesAux [] [] = [] from rfl]
  rfl

/-- Both lines of `chunk0` are newline-terminated, so both are scanned
before the aborting fill. -/
theorem completeLines_chunk0 : completeLines chunk0 = [fooLine, fillerLine] := by
  unfold completeLines
  rw [splitLines_chunk0]
  show (match ([fooLine, fillerLine] : List (List Nat)).getLast? with
    | none => ([] : List (List Nat))
    | some l => if l.getLast? = some 10 then [fooLine, fillerLine]
                else ([fooLine, fillerLine] : List (List Nat)).dropLast) = [fooLine, fillerLine]
  rw [show ([fooLine, fillerLine] : List (List Nat)).getLast? = some fillerLine from rfl]
  show (if fillerLine.getLast? = some 10 then [fooLine, fillerLine]
        else ([fooLine, fillerLine] : List (List Nat)).dropLast) = [fooLine, fillerLine]
  rw [show fillerLine.getLast? = some 10 from by rw [fillerLine, List.getLast?_concat],
    if_pos rfl]

/-- The filler line does not match the pattern `foo`. -/
theorem fillerLine_no_match : patFoo.matchesLine fillerLine = false := by
  have h : ∀ b ∈ fillerLine, (b == (102 : Nat)) = false := by
    intro b hb
    simp only [fillerLine, List.mem_append, List.mem_replicate, List.mem_singleton] at hb
    rcases hb with ⟨-, h⟩ | h <;> subst h <;> decide
  rw [LinePattern.matchesLine, patFoo, litPattern]
  simp only
  rw [litFindAux_no_f fillerLine h 0]
  rfl

/-!  The claims. -/

/-- C1 (counterexample): the claim says a Match's byte offsets delimit
the matched span (the substring the pattern matched).  On the one-line
file `foobarbaz\n` with pattern `bar`, the pattern's span within the
file is bytes `[3, 6)`, but the single recorded `Match` carries offsets
`[0, 10)` — the whole line, not the matched substring. -/
theorem match_offsets_not_span_counterexample :
    (search_in_file patBar fileFoobarbaz).map (fun m => (m.column_start, m.column_end))
        = [(0, 10)]
      ∧ patBar.find fileFoobarbaz = some (3, 6)
      ∧ scannedLines fileFoobarbaz = [fileFoobarbaz] := by decide

/-- C1 (amended): every scanned line on which the pattern matches yields
exactly one `Match` whose `line_number` is the 1-based line number and
whose `column_start`/`column_end` are the absolute byte offsets, within
the file, of the *entire matching line* (including its terminator):
slicing the file at those offsets recovers the match's text, which is
the matching line; line numbers are strictly increasing, so each line
yields exactly one match. -/
theorem search_in_file_match_anatomy (pat : LinePattern) (content : List Nat) :
    (∀ m, m ∈ search_in_file pat content ↔
        ∃ i l, (scannedLines content)[i]? = some l ∧ pat.matchesLine l = true
          ∧ m = ⟨i + 1, (((scannedLines content).take i).flatten).length,
                 (((scannedLines content).take i).flatten).length + l.length, l⟩)
      ∧ ((search_in_file pat content).map (fun m => m.line_number)).Pairwise
          (fun a b => a < b)
      ∧ (∀ m ∈ search_in_file pat content,
          (content.drop m.column_start).take (m.column_end - m.column_start) = m.text
            ∧ m.column_end = m.column_start + m.text.length
            ∧ pat.matchesLine m.text = true) := by
  refine ⟨?_, ?_, ?_⟩
  · intro m
    rw [search_in_file, mem_matchesFrom]
    constructor
    · rintro ⟨i, l, hg, hml, hm⟩
      refine ⟨i, l, hg, hml, ?_⟩
      rw [hm]
      simp only [Match.mk.injEq]
      exact ⟨by omega, by omega, by omega, trivial⟩
    · rintro ⟨i, l, hg, hml, hm⟩
      refine ⟨i, l, hg, hml, ?_⟩
      rw [hm]
      simp only [Match.mk.injEq]
      exact ⟨by omega, by omega, by omega, trivial⟩
  · exact matchesFrom_pairwise pat _ 0 1
  · intro m hm
    rw [search_in_file, mem_matchesFrom] at hm
    obtain ⟨i, l, hg, hml, rfl⟩ := hm
    obtain ⟨s, hfl⟩ := scannedLines_flatten content
    have hslice := slice_of_flatten hfl hg
    refine ⟨?_, by simp, hml⟩
    simp only [Nat.zero_add]
    rw [show (((scannedLines content).take i).flatten).length + l.length
        - (((scannedLines content).take i).flatten).length = l.length by omega]
    exact hslice

/-- C2 (counterexample): the claim says the call completes and returns
a result collection whenever the pattern compiles and the root is a
directory.  It does not: `results_clone` / `files_clone` still hold a
second `Arc` reference at the `Arc::try_unwrap`, so on the demo file
system (existing directory root, compiling pattern) both calls abort
with the unwrap error — and a missing root produces the same error, not
`PathNotFound`. -/
theorem always_aborts_counterexample :
    search_pattern fsDemo "r" (some patFoo) {} = .error .failedUnwrapResults
      ∧ search_pattern [] "/missing" (some patFoo) {} = .error .failedUnwrapResults
      ∧ search_files fsDemo "r" (some (fun _ => true)) = .error .failedUnwrapFiles :=
  ⟨rfl, rfl, rfl⟩

/-- C2 (amended): every call aborts with an error.  The error is
`InvalidPattern` exactly when the pattern fails to compile; with a
compiling pattern the call walks, aggregates, and then aborts with the
deterministic `Failed to unwrap results` / `Failed to unwrap files`
error, whatever the root.  `PathNotFound` does not exist (there is no
root validation), and no call ever returns a result collection. -/
theorem search_error_characterization (fs : Filesystem) (root_path : String)
    (compiled : Option LinePattern) (opts : SearchOptions)
    (compiledName : Option (String → Bool)) :
    ((search_pattern fs root_path compiled opts = .error .invalidPattern)
        ↔ compiled = none)
      ∧ (∀ pat, compiled = some pat →
          search_pattern fs root_path compiled opts = .error .failedUnwrapResults)
      ∧ (∀ rs, search_pattern fs root_path compiled opts ≠ .ok rs)
      ∧ ((search_files fs root_path compiledName = .error .invalidPattern)
          ↔ compiledName = none)
      ∧ (∀ m, compiledName = some m →
          search_files fs root_path compiledName = .error .failedUnwrapFiles)
      ∧ (∀ ps, search_files fs root_path compiledName ≠ .ok ps) := by
  refine ⟨?_, ?_, ?_, ?_, ?_, ?_⟩ <;>
    cases compiled <;> cases compiledName <;> simp [search_pattern, search_files]

/-- C3 (code bug, failing input): the claim says include globs restrict
and exclude globs always win.  The code passes each glob string to
`WalkBuilder::add`, which adds it as a further root *path* to walk, so
no glob filtering happens anywhere: with `include_patterns=["*.txt"]`
and `exclude_patterns=["*_skip.txt"]`, the traversal collects both the
non-`.txt` file `a.md` and the excluded file `b_skip.txt` into the
internal results vector, and the glob strings are traversed as literal
extra roots.  (The caller sees none of this: the call then aborts at
the always-failing `Arc::try_unwrap`.) -/
theorem include_exclude_globs_not_applied :
    gatherResults fsC3 "r" patFoo
        { include_patterns := some ["*.txt"], exclude_patterns := some ["*_skip.txt"] }
      = [⟨["r", "a.md"], [⟨1, 0, 4, fooLine⟩]⟩,
         ⟨["r", "b_skip.txt"], [⟨1, 0, 4, fooLine⟩]⟩]
      ∧ searchRootList "r"
          { include_patterns := some ["*.txt"], exclude_patterns := some ["*_skip.txt"] }
        = ["r", "*.txt", "!*_skip.txt"]
      ∧ search_pattern fsC3 "r" (some patFoo)
          { include_patterns := some ["*.txt"], exclude_patterns := some ["*_skip.txt"] }
        = .error .failedUnwrapResults := by decide

/-- C4 (counterexample): the claim says no hidden path component appears
in *any* search's traversal output or result, filename mode included.
`search_files` sets `hidden(false)`, so the traversal does visit the
file `b.txt` inside the hidden directory `.hid` and collects its
hidden-component path into the internal vector (the caller then gets
the unwrap error rather than any result). -/
theorem search_files_traverses_hidden_counterexample :
    (⟨["r", ".hid", "b.txt"], "b.txt", some fooLine⟩ : WalkedFile)
        ∈ walkRoots fsDemo filenameWalkConfig ["r"]
      ∧ isHiddenName ".hid" = true
      ∧ gatherFiles fsDemo "r" (fun n => n == "b.txt") = [["r", ".hid", "b.txt"]]
      ∧ search_files fsDemo "r" (some (fun n => n == "b.txt"))
          = .error .failedUnwrapFiles := by decide

/-- C4 (amended): in content mode with `include_hidden` unset or false,
no discovered path component starting with `.` appears anywhere in the
internally aggregated results (the results the method builds and then
discards at its always-failing unwrap), and a hidden directory entry is
pruned before descent (the walk of an entry list starting with a
hidden-named entry equals the walk without that entry, so nothing under
it is ever visited).  Filename mode disables hidden filtering: its
traversal visits and collects hidden paths. -/
theorem hidden_filtering_content_mode (fs : Filesystem) (root_path : String)
    (pat : LinePattern) (opts : SearchOptions)
    (hh : opts.include_hidden = none ∨ opts.include_hidden = some false) :
    (∀ r ∈ gatherResults fs root_path pat opts,
        ∀ c ∈ r.file_path.tail, isHiddenName c = false)
      ∧ (∀ ig git n t rest dirPath depth, isHiddenName n = true →
          walkEntries (contentWalkConfig opts) ig git (.cons n t rest) dirPath depth
            = walkEntries (contentWalkConfig opts) ig git rest dirPath depth) := by
  have hcfg : (contentWalkConfig opts).hidden = true := by
    rcases hh with hh | hh <;> simp [contentWalkConfig, hh]
  constructor
  · intro r hr c hc
    rw [gatherResults, List.mem_filterMap] at hr
    obtain ⟨e, hew, hpe⟩ := hr
    obtain ⟨bytes, -, -, rfl⟩ := processEntry_eq_some hpe
    rw [walkRoots, List.mem_flatMap] at hew
    obtain ⟨root, -, het⟩ := hew
    cases hlk : fs.lookup root with
    | none => rw [hlk] at het; simp at het
    | some t =>
      rw [hlk] at het
      obtain ⟨comps, hp, hcn⟩ :=
        walkTree_no_hidden _ hcfg t [root] (lastComponent root) 0 e het
      simp only [hp, List.singleton_append, List.tail_cons] at hc
      exact hcn c hc
  · intro ig git n t rest dirPath depth hn
    rw [walkEntries]
    rw [show skipEntry (contentWalkConfig opts) ig git n = true by
      simp [skipEntry, hcfg, hn]]
    simp

/-- C4 (witness): the amended theorem applied to the demo file system
with default options, at the internally collected result
`r/sub/c.txt` and its component `sub`: the component is not hidden. -/
theorem hidden_filtering_content_mode_witness : isHiddenName "sub" = false :=
  (hidden_filtering_content_mode fsDemo "r" patFoo {} (Or.inl rfl)).1
    ⟨["r", "sub", "c.txt"], [⟨1, 0, 4, fooLine⟩]⟩ (by decide) "sub" (by decide)

/-- C5 (counterexample): the claim says `max_depth=0` returns exactly
the eligible matching direct children of the root.  Nothing is ever
returned (the call aborts at the always-failing unwrap), and even the
internal collection refutes the claim: the root itself sits at depth 0
and its children at depth 1, so `max_depth=0` forbids any descent — the
matching direct child `a.txt` is collected at `max_depth=1` but the
`max_depth=0` traversal collects nothing. -/
theorem max_depth_zero_counterexample :
    gatherResults fsDemo "r" patFoo { max_depth := some 0 } = []
      ∧ gatherResults fsDemo "r" patFoo { max_depth := some 1 }
          = [⟨["r", "a.txt"], [⟨1, 0, 4, fooLine⟩]⟩]
      ∧ search_pattern fsDemo "r" (some patFoo) { max_depth := some 0 }
          = .error .failedUnwrapResults := by decide

/-- C5 (amended): for a directory root (with no include/exclude glob
strings added as extra roots), the traversal bounded by `max_depth=0`
collects no results at all — only the root itself, at depth 0, is
within the bound; `max_depth=1` collects exactly the eligible matching
direct file children of the root; with `max_depth` unset the walk is
the unlimited walk, so files at arbitrary nesting depth are collected.
(None of these collections is returned to the caller: every call aborts
at the always-failing `Arc::try_unwrap`.) -/
theorem max_depth_semantics (fs : Filesystem) (root_path : String)
    (pat : LinePattern) (opts : SearchOptions) (ig git : List String)
    (es : FSEntries)
    (hip : opts.include_patterns = none) (hep : opts.exclude_patterns = none)
    (hlk : fs.lookup root_path = some (.dir ig git es)) :
    (opts.max_depth = some 0 → gatherResults fs root_path pat opts = [])
      ∧ (opts.max_depth = some 1 →
          gatherResults fs root_path pat opts
            = (entriesToList es).filterMap (fun p =>
                if skipEntry (contentWalkConfig opts) ig git p.1 then none
                else match p.2 with
                  | .file (some bytes) =>
                    if (search_in_file pat bytes).isEmpty then none
                    else some ⟨[root_path, p.1], search_in_file pat bytes⟩
                  | _ => none))
      ∧ (opts.max_depth = none →
          gatherResults fs root_path pat opts
            = (walkTreeU (contentWalkConfig opts) (.dir ig git es) [root_path]
                (lastComponent root_path)).filterMap (processEntry pat)) := by
  have hroots : searchRootList root_path opts = [root_path] := by
    rw [searchRootList, hip, hep]; rfl
  have hwr : ∀ cfg, walkRoots fs cfg [root_path]
      = walkTree cfg (.dir ig git es) [root_path] (lastComponent root_path) 0 := by
    intro cfg
    rw [walkRoots, List.flatMap_cons, hlk, List.flatMap_nil, List.append_nil]
  refine ⟨?_, ?_, ?_⟩
  · intro hmd
    rw [gatherResults, hroots, hwr]
    rw [walkTree]
    rw [show canDescend (contentWalkConfig opts) 0 = false by
      rw [canDescend]
      simp only [contentWalkConfig, hmd, Option.map_some]
      rfl]
    rfl
  · intro hmd
    have hcfg : (contentWalkConfig opts).max_depth = some 1 := by
      simp only [contentWalkConfig, hmd, Option.map_some]
      rfl
    rw [gatherResults, hroots, hwr]
    rw [walkTree]
    rw [show canDescend (contentWalkConfig opts) 0 = true by
      rw [canDescend, hcfg]; rfl]
    rw [if_pos rfl]
    rw [walkEntries_depth_one _ hcfg]
    rw [List.filterMap_filterMap]
    refine congrArg (fun f => List.filterMap f (entriesToList es)) (funext fun p => ?_)
    by_cases hs : skipEntry (contentWalkConfig opts) ig git p.1 = true
    · rw [if_pos hs, if_pos hs]; rfl
    · rw [if_neg hs, if_neg hs]
      cases p.2 with
      | file c =>
        cases c with
        | none => rfl
        | some bytes => rfl
      | dir a b c => rfl
  · intro hmd
    have hcfg : (contentWalkConfig opts).max_depth = none := by
      simp only [contentWalkConfig, hmd]
      rfl
    rw [gatherResults, hroots, hwr]
    rw [walkTree_none_eq _ hcfg]

/-- C5 (witness): the amended theorem applied to the demo file system
with `max_depth = 0`: the traversal collects no results. -/
theorem max_depth_semantics_witness :
    gatherResults fsDemo "r" patFoo { max_depth := some 0 } = [] :=
  (max_depth_semantics fsDemo "r" patFoo { max_depth := some 0 } [] ["g.txt"]
    demoEntries rfl rfl rfl).1 rfl

/-- C6 (counterexample): the claim says a file whose scanned bytes
contain a NUL yields zero matches and never appears in results.  For a
file longer than the 64 KiB read chunk, matches found in fills read
before the NUL is observed have already been reported and stand:
`contentBig` contains a NUL, yet its scan records the `foo` match of
line 1, so the file would appear in the content results. -/
theorem match_before_nul_retained_counterexample :
    contentBig.contains 0 = true
      ∧ search_in_file patFoo contentBig = [⟨1, 0, 4, fooLine⟩] := by
  refine ⟨contentBig_contains, ?_⟩
  rw [search_in_file, scannedLines, firstNulChunk_contentBig]
  simp only
  rw [take_contentBig, completeLines_chunk0]
  rw [matchesFrom, matchesFrom, matchesFrom]
  rw [show patFoo.matchesLine fooLine = true by decide, fillerLine_no_match]
  simp [fooLine]

/-- C6 (amended): when a NUL byte lies within the *first* read chunk
(64 KiB) of a file, the very first fill aborts the search before
anything is scanned: the scan records zero matches and the file never
appears in content results, even if the pattern matches elsewhere in
the file.  (For larger files, matches reported from chunks read before
the NUL is observed are retained.) -/
theorem nul_in_first_chunk_no_matches (pat : LinePattern) (content : List Nat)
    (h : (content.take CAP).contains 0 = true) :
    search_in_file pat content = [] := by
  have hc : content.contains 0 = true := by
    rcases List.contains_iff_exists_mem_beq.mp h with ⟨a, ha, hb⟩
    exact List.contains_iff_exists_mem_beq.mpr ⟨a, List.mem_of_mem_take ha, hb⟩
  have hidx : content.findIdx (fun b => b == 0) / CAP = 0 :=
    Nat.div_eq_of_lt (findIdx_lt_of_take_contains h)
  unfold search_in_file scannedLines firstNulChunk
  rw [if_pos hc, hidx]
  simp [completeLines, splitLines, splitLinesAux, matchesFrom]

/-- C6 (witness): a small file (`f\0`) with a NUL in its first chunk
yields zero matches. -/
theorem nul_in_first_chunk_no_matches_witness :
    (([102, 0] : List Nat).take CAP).contains 0 = true
      ∧ search_in_file patFoo [102, 0] = [] :=
  ⟨by decide, nul_in_first_chunk_no_matches patFoo [102, 0] (by decide)⟩

/-- C7 (code bug): the claim speaks of the collection returned by
`search_content`, but nothing is ever returned — with a valid pattern
every call aborts at the always-failing `Arc::try_unwrap`.  The
intended invariant does hold of the collection the method builds and
then discards: a `SearchResult` is pushed only under
`if !matches.is_empty()`, so every internally aggregated result has a
non-empty match list. -/
theorem search_results_nonempty_matches (fs : Filesystem) (root_path : String)
    (pat : LinePattern) (opts : SearchOptions) :
    (∀ r ∈ gatherResults fs root_path pat opts, r.matchList ≠ [])
      ∧ search_pattern fs root_path (some pat) opts = .error .failedUnwrapResults := by
  constructor
  · intro r hr
    rw [gatherResults, List.mem_filterMap] at hr
    obtain ⟨e, -, he⟩ := hr
    obtain ⟨bytes, -, hne, rfl⟩ := processEntry_eq_some he
    simpa using hne
  · rfl

/-- C8 (counterexample): the claim says that under a per-file I/O
failure "the call still succeeds".  No call ever succeeds: on the demo
file system, whose walk includes the unreadable `u.txt`, the call
aborts with the unwrap error. -/
theorem io_failure_call_fails_counterexample :
    (⟨["r", "u.txt"], "u.txt", none⟩ : WalkedFile)
        ∈ walkRoots fsDemo (contentWalkConfig {}) (searchRootList "r" {})
      ∧ search_pattern fsDemo "r" (some patFoo) {} = .error .failedUnwrapResults := by
  decide

/-- C8 (amended): a per-file I/O failure (the file's open/canonicalize
failing, modelled as `content = none`) makes that file contribute
nothing and raises no error of its own: the walk and per-file scanning
of the remaining files proceed, the internally aggregated collection is
exactly that of the remaining walked files, and every aggregated result
stems from a readable file.  The call itself does not succeed — it
aborts with the same always-firing unwrap error with or without
unreadable files. -/
theorem io_failure_isolated (fs : Filesystem) (root_path : String)
    (pat : LinePattern) (opts : SearchOptions)
    (L1 L2 : List WalkedFile) (e : WalkedFile)
    (hw : walkRoots fs (contentWalkConfig opts) (searchRootList root_path opts)
        = L1 ++ e :: L2)
    (he : e.content = none) :
    gatherResults fs root_path pat opts
        = L1.filterMap (processEntry pat) ++ L2.filterMap (processEntry pat)
      ∧ (∀ r ∈ gatherResults fs root_path pat opts,
          ∃ w ∈ walkRoots fs (contentWalkConfig opts) (searchRootList root_path opts),
            w.content ≠ none ∧ r.file_path = w.path)
      ∧ search_pattern fs root_path (some pat) opts = .error .failedUnwrapResults := by
  refine ⟨?_, ?_, rfl⟩
  · rw [gatherResults, hw, List.filterMap_append, List.filterMap_cons]
    rw [show processEntry pat e = none by unfold processEntry; rw [he]]
  · intro r hr
    rw [gatherResults, List.mem_filterMap] at hr
    obtain ⟨w, hw', hpw⟩ := hr
    obtain ⟨bytes, hb, -, rfl⟩ := processEntry_eq_some hpw
    exact ⟨w, hw', by rw [hb]; exact fun hx => Option.noConfusion hx, rfl⟩

/-- C8 (witness): in the demo file system the file `u.txt` is
unreadable; the internal aggregation is exactly that of the other
walked files. -/
theorem io_failure_isolated_witness :
    gatherResults fsDemo "r" patFoo {}
      = [⟨["r", "a.txt"], "a.txt", some fooLine⟩,
         ⟨["r", "sub", "c.txt"], "c.txt", some fooLine⟩].filterMap
            (processEntry patFoo)
          ++ ([] : List WalkedFile).filterMap (processEntry patFoo) :=
  (io_failure_isolated fsDemo "r" patFoo {}
    [⟨["r", "a.txt"], "a.txt", some fooLine⟩,
     ⟨["r", "sub", "c.txt"], "c.txt", some fooLine⟩]
    [] ⟨["r", "u.txt"], "u.txt", none⟩ (by decide) rfl).1

/-- C9: two requests differing only in `case_sensitive` produce the same
result: the field is read by no code path of `search_pattern`. -/
theorem case_sensitive_no_influence (fs : Filesystem) (root_path : String)
    (compiled : Option LinePattern) (opts : SearchOptions) (b b' : Option Bool) :
    search_pattern fs root_path compiled { opts with case_sensitive := b }
      = search_pattern fs root_path compiled { opts with case_sensitive := b' } := rfl

/-- C10 (counterexample): the claim's "hidden files can be returned" is
false of the program — `search_files` never returns anything: every
call with a compiling pattern aborts at the always-failing
`Arc::try_unwrap(files)`.  (The hidden file is nevertheless visited and
internally collected, as the amended theorem shows.) -/
theorem search_files_never_returns_counterexample :
    search_files fsDemo "r" (some (fun n => n == "b.txt" || n == "g.txt"))
        = .error .failedUnwrapFiles
      ∧ gatherFiles fsDemo "r" (fun n => n == "b.txt" || n == "g.txt")
          = [["r", ".hid", "b.txt"]] := by decide

/-- C10 (amended): `search_files` takes no filter options and always
walks with the fixed configuration `hidden(false)`, `ignore(false)`,
`git_ignore(true)`, no depth bound — hidden filtering and local ignore
rules disabled (both enabled by default in content mode), gitignore
always applied, with no way for the caller to change any of this.
Concretely, its traversal visits and internally collects a file inside
a hidden directory while omitting a gitignored file; the collection is
then discarded, since every call aborts at the always-failing unwrap. -/
theorem search_files_fixed_config (fs : Filesystem) (root_path : String)
    (m : String → Bool) :
    gatherFiles fs root_path m
        = ((walkRoots fs
              { hidden := false, ignore := false, git_ignore := true, max_depth := none }
              [root_path]).filter (fun e => m e.name)).map (fun e => e.path)
      ∧ search_files fs root_path (some m) = .error .failedUnwrapFiles
      ∧ filenameWalkConfig.hidden = false
      ∧ filenameWalkConfig.ignore = false
      ∧ filenameWalkConfig.git_ignore = true
      ∧ filenameWalkConfig.max_depth = none
      ∧ (contentWalkConfig {}).hidden = true
      ∧ (contentWalkConfig {}).ignore = true
      ∧ gatherFiles fsDemo "r" (fun n => n == "b.txt" || n == "g.txt")
          = [["r", ".hid", "b.txt"]] := by
  refine ⟨rfl, rfl, rfl, rfl, rfl, rfl, rfl, rfl, ?_⟩
  decide

end SearchEngine
